import Mathlib

set_option maxRecDepth 20000

/-!
Verification of the core algorithms of the jjstack tool (src/main.rs):
reconstruction of pull-request chains from an unordered collection of
requests, rendering of the navigation block, and the navigation-block
text codec.  Rust strings are modelled as lists of characters (find and
slicing positions are derived from one another exactly as in the source,
so character positions are a faithful rendering of the byte positions
used there); Rust HashMap last-write-wins lookup is modelled by
searching the insertion sequence in reverse; the two unbounded walks of
build_pr_stacks are modelled with an explicit fuel bound, the function
returning none when the bound is hit.
-/

/-- Mirror of struct PullRequest (main.rs lines 40 to 47); i32 numbers are
modelled as Int, strings as lists of characters. -/
structure PullRequest where
  number : Int
  title : List Char
  head : List Char
  base : List Char
  body : List Char
deriving DecidableEq

/-- STACK_HEADER marker constant (main.rs line 17). -/
def STACK_HEADER : List Char := "<!-- STACK NAVIGATION -->".data

/-- STACK_FOOTER marker constant (main.rs line 18). -/
def STACK_FOOTER : List Char := "<!-- END STACK NAVIGATION -->".data

/-- Unicode white-space test on a character, as used by Rust str::trim
(the White_Space code points). -/
def isWS (c : Char) : Bool :=
  let n := c.toNat
  decide ((9 ≤ n ∧ n ≤ 13) ∨ n = 32 ∨ n = 0x85 ∨ n = 0xa0 ∨ n = 0x1680 ∨
    (0x2000 ≤ n ∧ n ≤ 0x200a) ∨ n = 0x2028 ∨ n = 0x2029 ∨ n = 0x202f ∨
    n = 0x205f ∨ n = 0x3000)

/-- Strip leading white space (the left half of Rust str::trim). -/
def trimLeft (s : List Char) : List Char := s.dropWhile isWS

/-- Strip trailing white space (the right half of Rust str::trim). -/
def trimRight (s : List Char) : List Char := (s.reverse.dropWhile isWS).reverse

/-- Rust str::trim: strip white space from both ends. -/
def trim (s : List Char) : List Char := trimLeft (trimRight s)

/-- Decide whether the first list is an initial segment of the second. -/
def isPre : List Char → List Char → Bool
  | [], _ => true
  | _ :: _, [] => false
  | a :: as, b :: bs => a == b && isPre as bs

/-- Rust str::find for a substring pattern: position of the first
occurrence of needle in hay, if any. -/
def findSub (needle : List Char) : List Char → Option Nat
  | [] => if needle.isEmpty then some 0 else none
  | c :: rest =>
    if isPre needle (c :: rest) then some 0
    else (findSub needle rest).map (· + 1)

/-- Rust str::contains for a substring pattern. -/
def containsSub (needle hay : List Char) : Bool :=
  (findSub needle hay).isSome

/-- Mirror of remove_nav_block (main.rs lines 285 to 304): locate the first
header occurrence and, independently, the first footer occurrence; if either
is absent return the body unchanged; otherwise drop everything from the
header position to the end of the footer, trim both remaining pieces, and
join them with a single newline unless one of them is empty. -/
def remove_nav_block (body : List Char) : List Char :=
  match findSub STACK_HEADER body with
  | none => body
  | some start =>
    match findSub STACK_FOOTER body with
    | none => body
    | some fpos =>
      let e := fpos + STACK_FOOTER.length
      let before := trim (body.take start)
      let after := trim (body.drop e)
      if before.isEmpty || after.isEmpty then before ++ after
      else before ++ ['\n'] ++ after

/-- The new-body computation of update_pr_description (main.rs lines 252
to 260): clean the freshly fetched body, and when the nav block is
non-empty append a newline when the cleaned body is non-empty and does not
already end in one, then a blank line, the block, and a final newline. -/
def update_pr_description (gh_pr_body nav_block : List Char) : List Char :=
  let new_body := remove_nav_block gh_pr_body
  if nav_block.isEmpty then new_body
  else
    let nb := if !new_body.isEmpty && !(new_body.getLast? == some '\n')
              then new_body ++ ['\n'] else new_body
    nb ++ ['\n'] ++ nav_block ++ ['\n']

/-- One rendered line of the navigation block, for the chain member at
zero-based position i (main.rs lines 215 to 230): the one-based index, the
request number, the head branch, and the marker suffix when the head is the
current branch, ended by a newline. -/
def navLine (i : Nat) (pr : PullRequest) (current_branch : List Char) : List Char :=
  (Nat.repr (i + 1)).data ++ ". PR #".data ++ (Int.repr pr.number).data ++
    " (branch: ".data ++ pr.head ++ ")".data ++
    (if pr.head == current_branch then " ◁".data else []) ++ ['\n']

/-- The enumerated for loop of generate_nav_block, rendering one line per
chain member with zero-based positions starting at i. -/
def navLines (chain : List PullRequest) (current_branch : List Char) (i : Nat) : List Char :=
  match chain with
  | [] => []
  | pr :: rest => navLine i pr current_branch ++ navLines rest current_branch (i + 1)

/-- Mirror of generate_nav_block (main.rs lines 210 to 233): header line,
label line, one line per chain member, footer line. -/
def generate_nav_block (chain : List PullRequest) (current_branch : List Char) : List Char :=
  STACK_HEADER ++ ['\n'] ++ "Stack of changes:".data ++ ['\n'] ++
    navLines chain current_branch 0 ++ STACK_FOOTER ++ ['\n']

/-- The per-stack update plan computed by the main loop (main.rs lines 80
to 114): every member of a stack of two or more receives its rendered
block; a single-member stack is skipped when its body holds neither
marker and receives an empty block (removal) otherwise.  The source
indexes stack[0] directly, so the empty case below is unreachable for
results of build_pr_stacks, whose chains are never empty. -/
def planStack (stack : List PullRequest) : List (PullRequest × List Char) :=
  if stack.length > 1 then
    stack.map (fun pr => (pr, generate_nav_block stack pr.head))
  else
    match stack with
    | [] => []
    | pr :: _ =>
      if !containsSub STACK_HEADER pr.body && !containsSub STACK_FOOTER pr.body
      then []
      else [(pr, [])]

/-- The head map of build_pr_stacks (main.rs lines 175 to 178): requests
are inserted in order keyed by head, a later insert overwriting an earlier
one, so a lookup is the last matching request in insertion order. -/
def lookupHead (all : List PullRequest) (b : List Char) : Option PullRequest :=
  all.reverse.find? (fun pr => pr.head == b)

/-- The child index of build_pr_stacks (main.rs lines 179 to 184): a
request pr is recorded under the head of its parent, which is exactly
pr.base, whenever the head map holds a request for pr.base; a later insert
overwrites an earlier one. -/
def childIdx (all : List PullRequest) (k : List Char) : Option PullRequest :=
  all.reverse.find? (fun pr => pr.base == k && (lookupHead all pr.base).isSome)

/-- The backward walk of build_pr_stacks (main.rs lines 191 to 194),
following parents until none exists; the source loop is unbounded, so it
is modelled with fuel, none meaning the bound was reached. -/
def walkBack (all : List PullRequest) : Nat → PullRequest → Option PullRequest
  | 0, _ => none
  | fuel + 1, current =>
    match lookupHead all current.base with
    | some parent => walkBack all fuel parent
    | none => some current

/-- The forward walk of build_pr_stacks (main.rs lines 195 to 204),
collecting the chain from the root by following the child index until no
child exists; fuelled like the backward walk. -/
def walkForward (all : List PullRequest) : Nat → PullRequest → Option (List PullRequest)
  | 0, _ => none
  | fuel + 1, current =>
    match childIdx all current.head with
    | some next => (walkForward all fuel next).map (current :: ·)
    | none => some [current]

/-- The main loop of build_pr_stacks (main.rs lines 187 to 206): visit
each request in order, skip it when its head was already collected, and
otherwise walk back to the root and forward to the tip, collecting the
chain and its heads.  The visited set is only read between walks, so
recording the chain heads after the forward walk is equivalent to the
insertions the source performs inside the walk. -/
def buildGo (all : List PullRequest) (fuel : Nat) :
    List PullRequest → List (List PullRequest) → List (List Char) →
    Option (List (List PullRequest))
  | [], sts, _ => some sts
  | pr :: rest, sts, visited =>
    if pr.head ∈ visited then buildGo all fuel rest sts visited
    else
      match walkBack all fuel pr with
      | none => none
      | some root =>
        match walkForward all fuel root with
        | none => none
        | some chain =>
          buildGo all fuel rest (sts ++ [chain]) (visited ++ chain.map (·.head))

/-- Mirror of build_pr_stacks (main.rs lines 174 to 208) under an explicit
fuel bound for the two inner walks. -/
def build_pr_stacks (fuel : Nat) (prs : List PullRequest) : Option (List (List PullRequest)) :=
  buildGo prs fuel prs [] []

/-- Child relation iterated k times, starting from a request. -/
def childN (all : List PullRequest) : Nat → PullRequest → Option PullRequest
  | 0, u => some u
  | k + 1, u => (childIdx all u.head).bind (childN all k)

/-- Parent relation iterated k times, starting from a request. -/
def parentN (all : List PullRequest) : Nat → PullRequest → Option PullRequest
  | 0, u => some u
  | k + 1, u => (lookupHead all u.base).bind (parentN all k)

/-- Invariant of the builder loop: collected requests come from the
input, are collected at most once, the visited set holds exactly their
heads, and the collection is closed under the child index and the head
map, because every emitted chain runs from a parentless root to a
childless tip. -/
def BuildInv (all : List PullRequest) (sts : List (List PullRequest))
    (visited : List (List Char)) : Prop :=
  (∀ q ∈ sts.flatten, q ∈ all) ∧
  sts.flatten.Nodup ∧
  (∀ h, h ∈ visited ↔ ∃ q ∈ sts.flatten, q.head = h) ∧
  (∀ q ∈ sts.flatten, ∀ c, childIdx all q.head = some c → c ∈ sts.flatten) ∧
  (∀ q ∈ sts.flatten, ∀ p, lookupHead all q.base = some p → p ∈ sts.flatten)

/-- The removal contract as the specification words it: find the first
occurrence of each marker independently, return the body unchanged when
either is absent, otherwise join the trimmed text before the header and the
trimmed text after the end of the footer, directly when either piece is
empty and with a single newline otherwise. -/
def removeBlockSpec (body : List Char) : List Char :=
  match findSub STACK_HEADER body, findSub STACK_FOOTER body with
  | some s, some f =>
    let before := trim (body.take s)
    let after := trim (body.drop (f + STACK_FOOTER.length))
    if before = [] ∨ after = [] then before ++ after else before ++ '\n' :: after
  | _, _ => body

/-- One rendered line as the specification words it, taking the zero-based
position paired with the member. -/
def navSpecLine (ip : Nat × PullRequest) (currentHead : List Char) : List Char :=
  (Nat.repr (ip.1 + 1)).data ++ ". PR #".data ++ (Int.repr ip.2.number).data ++
    " (branch: ".data ++ ip.2.head ++ ")".data ++
    (if ip.2.head = currentHead then " ◁".data else []) ++ ['\n']

/-- The renderer contract as the specification words it: header marker
line, the literal label line, the numbered member lines in chain order, and
the footer marker line, joined in order. -/
def navSpec (chain : List PullRequest) (currentHead : List Char) : List Char :=
  (STACK_HEADER ++ ['\n']) ++ ("Stack of changes:".data ++ ['\n']) ++
    (chain.enum.map (fun ip => navSpecLine ip currentHead)).flatten ++
    (STACK_FOOTER ++ ['\n'])

/-- The insertion behaviour as amended: empty block returns the cleaned
body; a non-empty block is appended after the cleaned body, a newline being
added first only when the cleaned body is non-empty and does not already
end with one, then a blank line, the block, and a final newline. -/
def insertBlockSpec (body block : List Char) : List Char :=
  let cleaned := remove_nav_block body
  if block = [] then cleaned
  else
    (if cleaned ≠ [] ∧ cleaned.getLast? ≠ some '\n' then cleaned ++ ['\n'] else cleaned) ++
      '\n' :: (block ++ ['\n'])

/-- Replace however many trailing newlines a text has by exactly one. -/
def adjustTrailing (s : List Char) : List Char :=
  (s.reverse.dropWhile (· == '\n')).reverse ++ ['\n']

/-- The insertion behaviour as the claim words it: for a non-empty block
the cleaned body is adjusted to end with exactly one trailing newline
before the blank line, the block, and the final newline are appended. -/
def claimInsertBlock (body block : List Char) : List Char :=
  if block = [] then remove_nav_block body
  else adjustTrailing (remove_nav_block body) ++ '\n' :: (block ++ ['\n'])

/-- Concrete request: head f1 on top of main. -/
def sA : PullRequest := ⟨1, [], "f1".data, "main".data, []⟩

/-- Concrete request: head f2 on top of f1. -/
def sB : PullRequest := ⟨2, [], "f2".data, "f1".data, []⟩

/-- Concrete request: head f3 on top of f2. -/
def sC : PullRequest := ⟨3, [], "f3".data, "f2".data, []⟩

/-- Concrete request: head a on top of main. -/
def qA : PullRequest := ⟨1, [], "a".data, "main".data, []⟩

/-- Concrete request: head b on top of a. -/
def qB : PullRequest := ⟨2, [], "b".data, "a".data, []⟩

/-- Concrete request sharing its base with qB: head c on top of a. -/
def qC : PullRequest := ⟨3, [], "c".data, "a".data, []⟩

/-- Concrete request forming a cycle with cY. -/
def cX : PullRequest := ⟨1, [], "x".data, "y".data, []⟩

/-- Concrete request forming a cycle with cX. -/
def cY : PullRequest := ⟨2, [], "y".data, "x".data, []⟩

/-- Concrete request whose head branch is the footer marker itself,
stacked on top of sA. -/
def eF : PullRequest := ⟨9, [], STACK_FOOTER, "f1".data, []⟩

/-- Concrete request whose body carries a stale navigation block. -/
def sE : PullRequest :=
  ⟨5, [], "f5".data, "main".data,
    "hi\n".data ++ STACK_HEADER ++ "\nz\n".data ++ STACK_FOOTER ++ "\n".data⟩

/-- Removal is the identity on a text in which either marker is absent. -/
theorem remove_nav_block_noop (y : List Char)
    (h : findSub STACK_HEADER y = none ∨ findSub STACK_FOOTER y = none) :
    remove_nav_block y = y := by
  unfold remove_nav_block
  split
  · rfl
  · split
    · rfl
    · rcases h with h | h <;> simp_all

/-- Claim C4: remove_nav_block returns its input unchanged when either
marker is absent, and otherwise joins the trimmed text before the first
header occurrence and the trimmed text after the end of the first footer
occurrence, directly if either piece is empty and with a single newline
otherwise; on the scenario body with intro and outro text it yields the
two lines joined by one newline. -/
theorem remove_nav_block_spec_correct :
    (∀ body, remove_nav_block body = removeBlockSpec body) ∧
    remove_nav_block
        "Intro text\n<!-- STACK NAVIGATION -->\nold\n<!-- END STACK NAVIGATION -->\nOutro text".data =
      "Intro text\nOutro text".data := by
  constructor
  · intro body
    unfold remove_nav_block removeBlockSpec
    cases h1 : findSub STACK_HEADER body with
    | none => rfl
    | some s =>
      cases h2 : findSub STACK_FOOTER body with
      | none => rfl
      | some f =>
        simp only [Bool.or_eq_true, List.isEmpty_iff]
        split <;> simp
  · decide

/-- The indexed line renderer agrees with mapping the spec line over the
enumerated chain, for every starting index. -/
theorem navLines_enumFrom (cur : List Char) (chain : List PullRequest) :
    ∀ i : Nat,
      navLines chain cur i =
        ((List.enumFrom i chain).map (fun ip => navSpecLine ip cur)).flatten := by
  induction chain with
  | nil => intro i; simp [navLines]
  | cons pr rest ih =>
    intro i
    simp [navLines, List.enumFrom, ih (i + 1), navLine, navSpecLine, beq_iff_eq]

/-- Claim C9: generate_nav_block produces exactly the header marker line,
the label line, one numbered line per member in chain order with the
marker suffix exactly on lines whose head is the current branch, and the
footer marker line, each line ended by a newline. -/
theorem generate_nav_block_spec_correct (chain : List PullRequest) (cur : List Char) :
    generate_nav_block chain cur = navSpec chain cur := by
  simp [generate_nav_block, navSpec, List.enum, navLines_enumFrom]

/-- Claim C5, amended: inserting an empty block returns exactly the
cleaned body; inserting a non-empty block appends to the cleaned body a
newline when the cleaned body is non-empty and does not already end with
one, then a blank line, the block, and a final newline (pre-existing runs
of trailing newlines are kept, not collapsed). -/
theorem update_pr_description_spec_amended (body block : List Char) :
    update_pr_description body block = insertBlockSpec body block := by
  unfold update_pr_description insertBlockSpec
  by_cases hb : block = []
  · simp [hb]
  · simp only [List.isEmpty_iff, hb, if_neg, ite_false, Bool.and_eq_true,
      Bool.not_eq_true', List.isEmpty_eq_false, beq_eq_false_iff_ne, ne_eq]
    split <;> simp

/-- Counterexample to claim C5 as stated: on a cleaned body ending with
two newlines, the code keeps both and adds a third separator newline,
while the claimed description, which adjusts the cleaned body to end with
exactly one trailing newline, collapses them. -/
theorem update_pr_description_cex :
    update_pr_description "a\n\n".data "B\n".data = "a\n\n\nB\n\n".data ∧
    claimInsertBlock "a\n\n".data "B\n".data = "a\n\nB\n\n".data ∧
    update_pr_description "a\n\n".data "B\n".data ≠
      claimInsertBlock "a\n\n".data "B\n".data := by
  refine ⟨by decide, by decide, by decide⟩

/-- Counterexample to claim C3 as stated: when the first footer occurrence
lies before the first header occurrence the removed region is negative,
the two kept pieces overlap, and removal duplicates text instead of
erasing the markers, so a second removal changes the text again. -/
theorem remove_nav_block_idem_cex :
    remove_nav_block (remove_nav_block (STACK_FOOTER ++ 'a' :: STACK_HEADER)) ≠
      remove_nav_block (STACK_FOOTER ++ 'a' :: STACK_HEADER) := by
  decide

/-- Claim C3, amended: block removal is idempotent on every input whose
removal output no longer holds both markers, which is the no-marker
condition the specification itself attaches to the no-op behaviour. -/
theorem remove_nav_block_idem_amended (x : List Char)
    (h : findSub STACK_HEADER (remove_nav_block x) = none ∨
         findSub STACK_FOOTER (remove_nav_block x) = none) :
    remove_nav_block (remove_nav_block x) = remove_nav_block x :=
  remove_nav_block_noop (remove_nav_block x) h

/-- Witness for the amended claim C3 at the marker-free text abc. -/
theorem remove_nav_block_idem_wit :
    remove_nav_block (remove_nav_block "abc".data) = remove_nav_block "abc".data :=
  remove_nav_block_idem_amended "abc".data (Or.inl (by decide))

/-- Claim C8: in the sync plan, every member of a chain of two or more
receives an update carrying its rendered block, even when textually
unchanged; a singleton chain is skipped when its body holds neither
marker and receives an empty-block removal update when it holds either
marker. -/
theorem planStack_policy :
    (∀ stack : List PullRequest, 2 ≤ stack.length →
      planStack stack = stack.map (fun pr => (pr, generate_nav_block stack pr.head))) ∧
    (∀ pr : PullRequest, containsSub STACK_HEADER pr.body = false →
      containsSub STACK_FOOTER pr.body = false → planStack [pr] = []) ∧
    (∀ pr : PullRequest,
      containsSub STACK_HEADER pr.body = true ∨ containsSub STACK_FOOTER pr.body = true →
      planStack [pr] = [(pr, [])]) := by
  refine ⟨?_, ?_, ?_⟩
  · intro stack h
    unfold planStack
    rw [if_pos (by omega)]
  · intro pr h1 h2
    simp [planStack, h1, h2]
  · intro pr h
    rcases h with h | h <;> simp [planStack, h]

/-- Witness for claim C8: a two-chain plans a block for each member, a
clean singleton is skipped, and a singleton with a stale block is planned
for removal. -/
theorem planStack_policy_wit :
    planStack [sA, sB] =
      [sA, sB].map (fun pr => (pr, generate_nav_block [sA, sB] pr.head)) ∧
    planStack [sA] = [] ∧ planStack [sE] = [(sE, [])] :=
  ⟨planStack_policy.1 [sA, sB] (by decide),
   planStack_policy.2.1 sA (by decide) (by decide),
   planStack_policy.2.2 sE (Or.inl (by decide))⟩

/-- A successful forward walk starts at its starting request. -/
theorem walkForward_shape (all : List PullRequest) (fuel : Nat) (u : PullRequest)
    (ch : List PullRequest) (h : walkForward all fuel u = some ch) :
    ∃ t, ch = u :: t := by
  cases fuel with
  | zero => simp [walkForward] at h
  | succ n =>
    unfold walkForward at h
    split at h
    · obtain ⟨t, _, hch⟩ := Option.map_eq_some'.mp h
      exact ⟨t, hch.symm⟩
    · exact ⟨[], by simpa using h.symm⟩

/-- What a child-index hit guarantees: the child targets the key branch,
is drawn from the input, and the key branch is a tracked head. -/
theorem childIdx_spec (all : List PullRequest) (k : List Char) (c : PullRequest)
    (h : childIdx all k = some c) :
    c.base = k ∧ c ∈ all ∧ (lookupHead all k).isSome = true := by
  have hp := List.find?_some h
  have hm := List.mem_of_find?_eq_some h
  simp only [Bool.and_eq_true, beq_iff_eq] at hp
  obtain ⟨hb, hs⟩ := hp
  exact ⟨hb, List.mem_reverse.mp hm, hb ▸ hs⟩

/-- What a head-map hit guarantees: the request is drawn from the input
and has the looked-up head. -/
theorem lookupHead_spec (all : List PullRequest) (b : List Char) (p : PullRequest)
    (h : lookupHead all b = some p) : p ∈ all ∧ p.head = b := by
  have hp := List.find?_some h
  have hm := List.mem_of_find?_eq_some h
  simp only [beq_iff_eq] at hp
  exact ⟨List.mem_reverse.mp hm, hp⟩

/-- Any property of chains established by every successful forward walk is
carried from the accumulated stacks to the final result of the builder
loop. -/
theorem buildGo_preserves (all : List PullRequest) (fuel : Nat)
    (Q : List PullRequest → Prop)
    (hQ : ∀ root ch, walkForward all fuel root = some ch → Q ch) :
    ∀ (rem : List PullRequest) (sts : List (List PullRequest))
      (visited : List (List Char)) (out : List (List PullRequest)),
      (∀ ch ∈ sts, Q ch) → buildGo all fuel rem sts visited = some out →
      ∀ ch ∈ out, Q ch := by
  intro rem
  induction rem with
  | nil =>
    intro sts visited out hs hb
    unfold buildGo at hb
    cases hb
    exact hs
  | cons pr rest ih =>
    intro sts visited out hs hb
    unfold buildGo at hb
    by_cases hv : pr.head ∈ visited
    · rw [if_pos hv] at hb
      exact ih _ _ _ hs hb
    · rw [if_neg hv] at hb
      split at hb
      · cases hb
      · rename_i root hwb
        split at hb
        · cases hb
        · rename_i chain hwf
          refine ih _ _ _ ?_ hb
          intro ch hch
          rcases List.mem_append.mp hch with h1 | h1
          · exact hs ch h1
          · rw [List.mem_singleton.mp h1]
            exact hQ root chain hwf

/-- Adjacent members of a successful forward walk are linked by the child
index. -/
theorem walkForward_adjacent (all : List PullRequest) :
    ∀ (fuel : Nat) (u : PullRequest) (ch : List PullRequest),
      walkForward all fuel u = some ch →
      ∀ (i : Nat) (a b : PullRequest), ch[i]? = some a → ch[i + 1]? = some b →
        childIdx all a.head = some b := by
  intro fuel
  induction fuel with
  | zero => intro u ch h; simp [walkForward] at h
  | succ n ih =>
    intro u ch h i a b ha hb
    unfold walkForward at h
    split at h
    · rename_i next hc
      obtain ⟨t, hw, hch⟩ := Option.map_eq_some'.mp h
      rw [← hch] at ha hb
      cases i with
      | zero =>
        obtain ⟨t', rfl⟩ := walkForward_shape all n next t hw
        simp at ha hb
        rw [← ha, ← hb]
        exact hc
      | succ j =>
        simp only [List.getElem?_cons_succ] at ha hb
        exact ih next t hw j a b ha hb
    · rename_i hc
      have hch : ch = [u] := by simpa using h.symm
      subst hch
      cases i with
      | zero => simp at hb
      | succ j => simp at ha

/-- Claim C7: in every chain returned by build_pr_stacks under the
unique-head precondition, each member after the first targets the head
branch of its predecessor. -/
theorem build_pr_stacks_ordered (prs : List PullRequest) (fuel : Nat)
    (out : List (List PullRequest))
    (_hheads : prs.Pairwise (fun a b => a.head ≠ b.head))
    (h : build_pr_stacks fuel prs = some out) :
    ∀ chain ∈ out, ∀ (i : Nat) (a b : PullRequest),
      chain[i]? = some a → chain[i + 1]? = some b → b.base = a.head := by
  have := buildGo_preserves prs fuel
    (fun ch => ∀ (i : Nat) (a b : PullRequest),
      ch[i]? = some a → ch[i + 1]? = some b → b.base = a.head)
    (fun root ch hw i a b ha hb =>
      (childIdx_spec prs a.head b (walkForward_adjacent prs fuel root ch hw i a b ha hb)).1)
    prs [] [] out (by simp) h
  exact this

/-- Witness for claim C7 on the three-chain scenario input: the second
member of the returned chain targets the head of the first. -/
theorem build_pr_stacks_ordered_wit : sB.base = sA.head :=
  build_pr_stacks_ordered [sA, sB, sC] 5 [[sA, sB, sC]] (by decide) (by decide)
    [sA, sB, sC] (by decide) 0 sA sB (by decide) (by decide)

/-- Claim C10: every chain of a successful build is non-empty, so the
orchestrator access to the first member of a singleton chain is in
bounds. -/
theorem build_pr_stacks_nonempty_chains (prs : List PullRequest) (fuel : Nat)
    (out : List (List PullRequest)) (_hne : prs ≠ [])
    (h : build_pr_stacks fuel prs = some out) :
    ∀ ch ∈ out, ch ≠ [] := by
  refine buildGo_preserves prs fuel (fun ch => ch ≠ []) ?_ prs [] [] out (by simp) h
  intro root ch hw
  obtain ⟨t, rfl⟩ := walkForward_shape prs fuel root ch hw
  simp

/-- Witness for claim C10 on the three-chain scenario input: the one
returned chain is non-empty. -/
theorem build_pr_stacks_nonempty_chains_wit :
    [sA, sB, sC] ≠ ([] : List PullRequest) :=
  build_pr_stacks_nonempty_chains [sA, sB, sC] 5 [[sA, sB, sC]] (by decide) (by decide)
    [sA, sB, sC] (by decide)

/-- On the two-cycle input the backward walk never finds a root, whatever
fuel it is granted: it alternates between the two requests forever. -/
theorem cycle_walkBack : ∀ n : Nat,
    walkBack [cX, cY] n cX = none ∧ walkBack [cX, cY] n cY = none := by
  intro n
  induction n with
  | zero => exact ⟨rfl, rfl⟩
  | succ n ih =>
    constructor
    · show walkBack [cX, cY] (n + 1) cX = none
      unfold walkBack
      rw [show lookupHead [cX, cY] cX.base = some cY from by decide]
      exact ih.2
    · show walkBack [cX, cY] (n + 1) cY = none
      unfold walkBack
      rw [show lookupHead [cX, cY] cY.base = some cX from by decide]
      exact ih.1

/-- Claim C2 fails on the code: on the two-request base/head cycle the
backward walk of build_pr_stacks loops forever, modelled here by the walk
exhausting every fuel bound, so no bound makes the build succeed. -/
theorem build_pr_stacks_cycle_hangs : ∀ fuel : Nat,
    build_pr_stacks fuel [cX, cY] = none := by
  intro fuel
  unfold build_pr_stacks buildGo
  rw [if_neg (by simp)]
  rw [(cycle_walkBack fuel).1]

/-- Counterexample to claim C1 as stated: with unique heads but a shared
base, the request with the overwritten child link is dropped from every
chain while its siblings are emitted twice. -/
theorem build_pr_stacks_partition_cex :
    ([qA, qB, qC] : List PullRequest).Pairwise (fun a b => a.head ≠ b.head) ∧
    build_pr_stacks 10 [qA, qB, qC] = some [[qA, qC], [qA, qC]] ∧
    qB ∈ [qA, qB, qC] ∧
    [[qA, qC], [qA, qC]].flatten.count qB = 0 ∧
    [[qA, qC], [qA, qC]].flatten.count qA = 2 := by
  refine ⟨?_, ?_, ?_, ?_, ?_⟩ <;> decide

/-- Two members of a head-distinct input with the same head are equal. -/
theorem head_inj (all : List PullRequest)
    (hH : all.Pairwise (fun a b => a.head ≠ b.head)) (p q : PullRequest)
    (hp : p ∈ all) (hq : q ∈ all) (h : p.head = q.head) : p = q := by
  by_contra hne
  exact List.Pairwise.forall (fun {a b} hab => Ne.symm hab) hH hp hq hne h

/-- Two members of a base-distinct input with the same base are equal. -/
theorem base_inj (all : List PullRequest)
    (hB : all.Pairwise (fun a b => a.base ≠ b.base)) (p q : PullRequest)
    (hp : p ∈ all) (hq : q ∈ all) (h : p.base = q.base) : p = q := by
  by_contra hne
  exact List.Pairwise.forall (fun {a b} hab => Ne.symm hab) hB hp hq hne h

/-- The head map hits every tracked head. -/
theorem lookupHead_isSome_of_mem (all : List PullRequest) (p : PullRequest)
    (hp : p ∈ all) : (lookupHead all p.head).isSome = true := by
  unfold lookupHead
  rw [List.find?_isSome]
  exact ⟨p, List.mem_reverse.mpr hp, by simp⟩

/-- Under distinct heads, the head map is lookup by head. -/
theorem lookupHead_unique (all : List PullRequest)
    (hH : all.Pairwise (fun a b => a.head ≠ b.head)) (p : PullRequest)
    (hp : p ∈ all) : lookupHead all p.head = some p := by
  cases hl : lookupHead all p.head with
  | none =>
    have := lookupHead_isSome_of_mem all p hp
    rw [hl] at this
    cases this
  | some q =>
    obtain ⟨hqm, hqh⟩ := lookupHead_spec all p.head q hl
    rw [head_inj all hH q p hqm hp hqh]

/-- The child index hits every request whose base is a tracked head. -/
theorem childIdx_isSome_of_mem (all : List PullRequest) (c : PullRequest)
    (hc : c ∈ all) (hs : (lookupHead all c.base).isSome = true) :
    (childIdx all c.base).isSome = true := by
  unfold childIdx
  rw [List.find?_isSome]
  exact ⟨c, List.mem_reverse.mpr hc, by simp [hs]⟩

/-- Under distinct bases, the child index is lookup by base. -/
theorem childIdx_unique (all : List PullRequest)
    (hB : all.Pairwise (fun a b => a.base ≠ b.base)) (c : PullRequest)
    (hc : c ∈ all) (hs : (lookupHead all c.base).isSome = true) :
    childIdx all c.base = some c := by
  cases hl : childIdx all c.base with
  | none =>
    have := childIdx_isSome_of_mem all c hc hs
    rw [hl] at this
    cases this
  | some q =>
    obtain ⟨hqb, hqm, _⟩ := childIdx_spec all c.base q hl
    rw [base_inj all hB q c hqm hc hqb]

/-- Under distinct heads, a child-index edge inverts to a head-map edge. -/
theorem child_parent (all : List PullRequest)
    (hH : all.Pairwise (fun a b => a.head ≠ b.head)) (p c : PullRequest)
    (hp : p ∈ all) (hc : childIdx all p.head = some c) :
    lookupHead all c.base = some p := by
  obtain ⟨hb, _, _⟩ := childIdx_spec all p.head c hc
  rw [hb]
  exact lookupHead_unique all hH p hp

/-- Under distinct bases, a head-map edge inverts to a child-index
edge. -/
theorem parent_child (all : List PullRequest)
    (hB : all.Pairwise (fun a b => a.base ≠ b.base)) (c p : PullRequest)
    (hc : c ∈ all) (hp : lookupHead all c.base = some p) :
    childIdx all p.head = some c := by
  obtain ⟨_, hph⟩ := lookupHead_spec all c.base p hp
  rw [hph]
  exact childIdx_unique all hB c hc (by rw [hp]; rfl)

/-- Splitting an iterated child step. -/
theorem childN_add (all : List PullRequest) (d : Nat) :
    ∀ (i : Nat) (u : PullRequest),
      childN all (i + d) u = (childN all i u).bind (childN all d) := by
  intro i
  induction i with
  | zero => intro u; simp [childN, Nat.zero_add]
  | succ i ih =>
    intro u
    have hs : i + 1 + d = (i + d) + 1 := by omega
    rw [hs]
    show (childIdx all u.head).bind (childN all (i + d)) =
      ((childIdx all u.head).bind (childN all i)).bind (childN all d)
    cases childIdx all u.head with
    | none => rfl
    | some w => exact ih w

/-- An iterated child step decomposed at its last step. -/
theorem childN_succ_tail (all : List PullRequest) (k : Nat) (u : PullRequest) :
    childN all (k + 1) u = (childN all k u).bind (fun v => childIdx all v.head) := by
  rw [childN_add all 1 k u]
  congr 1
  funext v
  show (childIdx all v.head).bind (childN all 0) = childIdx all v.head
  cases childIdx all v.head with
  | none => rfl
  | some w => rfl

/-- Every position of a successful forward walk is the corresponding
iterated child step from the start. -/
theorem walkForward_get (all : List PullRequest) :
    ∀ (fuel : Nat) (u : PullRequest) (ch : List PullRequest),
      walkForward all fuel u = some ch →
      ∀ (i : Nat) (a : PullRequest), ch[i]? = some a → childN all i u = some a := by
  intro fuel
  induction fuel with
  | zero => intro u ch h; simp [walkForward] at h
  | succ n ih =>
    intro u ch h i a ha
    unfold walkForward at h
    split at h
    · rename_i next hc
      obtain ⟨t, hw, hch⟩ := Option.map_eq_some'.mp h
      rw [← hch] at ha
      cases i with
      | zero =>
        simp at ha
        rw [← ha]
        rfl
      | succ j =>
        simp only [List.getElem?_cons_succ] at ha
        show (childIdx all u.head).bind (childN all j) = some a
        rw [hc]
        exact ih next t hw j a ha
    · rename_i hc
      have hch : ch = [u] := by simpa using h.symm
      subst hch
      cases i with
      | zero =>
        simp at ha
        rw [← ha]
        rfl
      | succ j => simp at ha

/-- Every request reached from the start by iterated child steps lies in
the chain of a successful forward walk. -/
theorem walkForward_reach (all : List PullRequest) :
    ∀ (k fuel : Nat) (u v : PullRequest) (ch : List PullRequest),
      walkForward all fuel u = some ch → childN all k u = some v → v ∈ ch := by
  intro k
  induction k with
  | zero =>
    intro fuel u v ch hw hk
    obtain ⟨t, rfl⟩ := walkForward_shape all fuel u ch hw
    have : u = v := by simpa [childN] using hk
    rw [← this]
    simp
  | succ j ih =>
    intro fuel u v ch hw hk
    obtain ⟨w, hcw, hjw⟩ := Option.bind_eq_some.mp hk
    cases fuel with
    | zero => simp [walkForward] at hw
    | succ n =>
      unfold walkForward at hw
      split at hw
      · rename_i next hc
        obtain ⟨t, hwt, hch⟩ := Option.map_eq_some'.mp hw
        rw [hc] at hcw
        have hwn : next = w := by injection hcw
        subst hwn
        rw [← hch]
        exact List.mem_cons_of_mem u (ih n next v t hwt hjw)
      · rename_i hc
        rw [hc] at hcw
        cases hcw

/-- A successful forward walk ends at a childless request. -/
theorem walkForward_last (all : List PullRequest) :
    ∀ (fuel : Nat) (u : PullRequest) (ch : List PullRequest),
      walkForward all fuel u = some ch →
      ∃ l, ch.getLast? = some l ∧ childIdx all l.head = none := by
  intro fuel
  induction fuel with
  | zero => intro u ch h; simp [walkForward] at h
  | succ n ih =>
    intro u ch h
    unfold walkForward at h
    split at h
    · rename_i next hc
      obtain ⟨t, hw, hch⟩ := Option.map_eq_some'.mp h
      obtain ⟨l, hl, hcl⟩ := ih next t hw
      obtain ⟨t', rfl⟩ := walkForward_shape all n next t hw
      refine ⟨l, ?_, hcl⟩
      rw [← hch]
      rw [List.getLast?_cons_cons]
      exact hl
    · rename_i hc
      have hch : ch = [u] := by simpa using h.symm
      subst hch
      exact ⟨u, rfl, hc⟩

/-- A successful forward walk from an input request stays in the input. -/
theorem walkForward_mem_all (all : List PullRequest) :
    ∀ (fuel : Nat) (u : PullRequest) (ch : List PullRequest), u ∈ all →
      walkForward all fuel u = some ch → ∀ v ∈ ch, v ∈ all := by
  intro fuel
  induction fuel with
  | zero => intro u ch _ h; simp [walkForward] at h
  | succ n ih =>
    intro u ch hu h v hv
    unfold walkForward at h
    split at h
    · rename_i next hc
      obtain ⟨t, hw, hch⟩ := Option.map_eq_some'.mp h
      rw [← hch] at hv
      rcases List.mem_cons.mp hv with rfl | hv
      · exact hu
      · exact ih next t (childIdx_spec all u.head next hc).2.1 hw v hv
    · rename_i hc
      have hch : ch = [u] := by simpa using h.symm
      subst hch
      rcases List.mem_singleton.mp hv with rfl
      exact hu

/-- Iterating a child cycle any number of times returns to its start. -/
theorem childN_mul_cycle (all : List PullRequest) (u : PullRequest) (p : Nat)
    (hp : childN all p u = some u) : ∀ q : Nat, childN all (q * p) u = some u := by
  intro q
  induction q with
  | zero => rw [Nat.zero_mul]; rfl
  | succ q ih =>
    have : (q + 1) * p = q * p + p := by ring
    rw [this, childN_add all p (q * p) u, ih]
    exact hp

/-- A child cycle is incompatible with reaching a childless request: the
walk down a cycle never finds an endpoint. -/
theorem term_no_cycle (all : List PullRequest) (u w : PullRequest) (p m : Nat)
    (hcyc : childN all p u = some u) (hp : 1 ≤ p)
    (hm : childN all m u = some w) (hend : childIdx all w.head = none) : False := by
  have hdecomp : m = m / p * p + m % p := by
    rw [Nat.mul_comm (m / p) p]
    exact (Nat.div_add_mod m p).symm
  have h1 : childN all (m / p * p) u = some u := childN_mul_cycle all u p hcyc (m / p)
  have h3 : childN all (m % p) u = some w := by
    rw [hdecomp, childN_add all (m % p) (m / p * p) u, h1] at hm
    exact hm
  have hlt : m % p < p := Nat.mod_lt _ hp
  have h4 : childN all p u = (childN all (m % p) u).bind (childN all (p - m % p)) := by
    rw [← childN_add]
    congr 1
    omega
  rw [h3, hcyc] at h4
  obtain ⟨s, hs⟩ : ∃ s, p - m % p = s + 1 := ⟨p - m % p - 1, by omega⟩
  rw [hs] at h4
  have h6 : (some w).bind (childN all (s + 1)) = none := by
    simp only [Option.some_bind]
    show (childIdx all w.head).bind (childN all s) = none
    rw [hend]
    rfl
  rw [h6] at h4
  cases h4

/-- A successful forward walk never repeats a request. -/
theorem walkForward_nodup (all : List PullRequest) (fuel : Nat) (u : PullRequest)
    (ch : List PullRequest) (h : walkForward all fuel u = some ch) : ch.Nodup := by
  rw [List.Nodup, List.pairwise_iff_getElem]
  intro i j hi hj hij
  intro heq
  have hgi : ch[i]? = some ch[i] := List.getElem?_eq_some.mpr ⟨hi, rfl⟩
  have hgj : ch[j]? = some ch[j] := List.getElem?_eq_some.mpr ⟨hj, rfl⟩
  rw [heq] at hgi
  have hci := walkForward_get all fuel u ch h i ch[j] hgi
  have hcj := walkForward_get all fuel u ch h j ch[j] hgj
  have hsplit : childN all j u = (childN all i u).bind (childN all (j - i)) := by
    rw [← childN_add]
    congr 1
    omega
  rw [hci, hcj] at hsplit
  have hcyc : childN all (j - i) ch[j] = some ch[j] := hsplit.symm
  obtain ⟨l, hl, hend⟩ := walkForward_last all fuel u ch h
  have hlast : ch[ch.length - 1]? = some l := by
    rw [← hl]
    exact (List.getLast?_eq_getElem? ch).symm
  have hcl := walkForward_get all fuel u ch h (ch.length - 1) l hlast
  have hsplit2 : childN all (ch.length - 1) u =
      (childN all i u).bind (childN all (ch.length - 1 - i)) := by
    rw [← childN_add]
    congr 1
    omega
  rw [hci, hcl] at hsplit2
  exact term_no_cycle all ch[j] l (j - i) (ch.length - 1 - i) hcyc (by omega)
    hsplit2.symm hend

/-- A successful backward walk ends at a parentless root reached by
iterated parent steps. -/
theorem walkBack_spec (all : List PullRequest) :
    ∀ (fuel : Nat) (u r : PullRequest), walkBack all fuel u = some r →
      lookupHead all r.base = none ∧ ∃ k, parentN all k u = some r := by
  intro fuel
  induction fuel with
  | zero => intro u r h; simp [walkBack] at h
  | succ n ih =>
    intro u r h
    unfold walkBack at h
    split at h
    · rename_i parent hl
      obtain ⟨hroot, k, hk⟩ := ih parent r h
      refine ⟨hroot, k + 1, ?_⟩
      show (lookupHead all u.base).bind (parentN all k) = some r
      rw [hl]
      exact hk
    · rename_i hl
      have : u = r := by injection h
      subst this
      exact ⟨hl, 0, rfl⟩

/-- Iterated parent steps from an input request stay in the input. -/
theorem parentN_mem (all : List PullRequest) :
    ∀ (k : Nat) (u r : PullRequest), u ∈ all → parentN all k u = some r → r ∈ all := by
  intro k
  induction k with
  | zero =>
    intro u r hu h
    have : u = r := by injection h
    exact this ▸ hu
  | succ j ih =>
    intro u r hu h
    obtain ⟨p, hp, hj⟩ := Option.bind_eq_some.mp h
    exact ih p r (lookupHead_spec all u.base p hp).1 hj

/-- Under distinct bases, a parent path inverts to a child path of the
same length. -/
theorem parentN_invert (all : List PullRequest)
    (hB : all.Pairwise (fun a b => a.base ≠ b.base)) :
    ∀ (k : Nat) (u r : PullRequest), u ∈ all → parentN all k u = some r →
      childN all k r = some u := by
  intro k
  induction k with
  | zero =>
    intro u r _ h
    have : u = r := by injection h
    subst this
    rfl
  | succ j ih =>
    intro u r hu h
    obtain ⟨p, hp, hj⟩ := Option.bind_eq_some.mp h
    have hpc := ih p r (lookupHead_spec all u.base p hp).1 hj
    rw [childN_succ_tail all j r, hpc]
    show childIdx all p.head = some u
    exact parent_child all hB u p hu hp

/-- The chain of a successful forward walk is closed under the child
index: a member with a child has that child in the chain. -/
theorem chain_closed_child (all : List PullRequest) (fuel : Nat) (root : PullRequest)
    (ch : List PullRequest) (h : walkForward all fuel root = some ch) :
    ∀ q ∈ ch, ∀ c, childIdx all q.head = some c → c ∈ ch := by
  intro q hq c hc
  obtain ⟨i, hi⟩ := List.mem_iff_getElem?.mp hq
  have hilen : i < ch.length := (List.getElem?_eq_some.mp hi).1
  by_cases hlast : i + 1 < ch.length
  · have hnext : ch[i + 1]? = some ch[i + 1] := List.getElem?_eq_some.mpr ⟨hlast, rfl⟩
    have hadj := walkForward_adjacent all fuel root ch h i q ch[i + 1] hi hnext
    rw [hc] at hadj
    have hce : c = ch[i + 1] := by injection hadj
    rw [hce]
    exact List.getElem_mem hlast
  · obtain ⟨l, hl, hend⟩ := walkForward_last all fuel root ch h
    have hgl : ch[ch.length - 1]? = some l := by
      rw [← hl]
      exact (List.getLast?_eq_getElem? ch).symm
    have hieq : i = ch.length - 1 := by omega
    rw [hieq] at hi
    rw [hi] at hgl
    have hql : q = l := by injection hgl
    rw [hql, hend] at hc
    cases hc

/-- Under distinct heads, the chain of a successful forward walk from a
parentless root drawn from the input is closed under the head map: a
member with a parent has that parent in the chain. -/
theorem chain_closed_parent (all : List PullRequest)
    (hH : all.Pairwise (fun a b => a.head ≠ b.head)) (fuel : Nat)
    (root : PullRequest) (ch : List PullRequest)
    (hroot : lookupHead all root.base = none) (hrm : root ∈ all)
    (h : walkForward all fuel root = some ch) :
    ∀ q ∈ ch, ∀ p, lookupHead all q.base = some p → p ∈ ch := by
  intro q hq p hp
  obtain ⟨i, hi⟩ := List.mem_iff_getElem?.mp hq
  cases i with
  | zero =>
    obtain ⟨t, rfl⟩ := walkForward_shape all fuel root ch h
    have hrq : root = q := by simpa using hi
    rw [← hrq, hroot] at hp
    cases hp
  | succ j =>
    have hj : j < ch.length := by
      have := (List.getElem?_eq_some.mp hi).1
      omega
    have ha : ch[j]? = some ch[j] := List.getElem?_eq_some.mpr ⟨hj, rfl⟩
    have hadj := walkForward_adjacent all fuel root ch h j ch[j] q ha hi
    have hmem := walkForward_mem_all all fuel root ch hrm h ch[j] (List.getElem_mem hj)
    have hpc := child_parent all hH ch[j] q hmem hadj
    rw [hp] at hpc
    have hpe : p = ch[j] := by injection hpc
    rw [hpe]
    exact List.getElem_mem hj

/-- Walking backwards from a request outside a child-closed collection
stays outside that collection. -/
theorem back_fresh (all : List PullRequest) (J : List PullRequest)
    (hclosed : ∀ q ∈ J, ∀ c, childIdx all q.head = some c → c ∈ J)
    (hB : all.Pairwise (fun a b => a.base ≠ b.base)) :
    ∀ (k : Nat) (u r : PullRequest), u ∈ all → u ∉ J →
      parentN all k u = some r → r ∉ J := by
  intro k
  induction k with
  | zero =>
    intro u r hu hJ h
    have : u = r := by injection h
    exact this ▸ hJ
  | succ j ih =>
    intro u r hu hJ h
    obtain ⟨p, hp, hj⟩ := Option.bind_eq_some.mp h
    have hpJ : p ∉ J := fun hpJ => hJ (hclosed p hpJ u (parent_child all hB u p hu hp))
    exact ih p r (lookupHead_spec all u.base p hp).1 hpJ hj

/-- Walking forwards from a request outside a parent-closed collection
stays outside that collection. -/
theorem fwd_fresh (all : List PullRequest) (J : List PullRequest)
    (hclosed : ∀ q ∈ J, ∀ p, lookupHead all q.base = some p → p ∈ J)
    (hH : all.Pairwise (fun a b => a.head ≠ b.head)) :
    ∀ (i : Nat) (r v : PullRequest), r ∈ all → r ∉ J →
      childN all i r = some v → v ∉ J := by
  intro i
  induction i with
  | zero =>
    intro r v hr hJ h
    have : r = v := by injection h
    exact this ▸ hJ
  | succ j ih =>
    intro r v hr hJ h
    obtain ⟨w, hw, hj⟩ := Option.bind_eq_some.mp h
    have hwJ : w ∉ J := fun hwJ => hJ (hclosed w hwJ r (child_parent all hH r w hr hw))
    exact ih w v (childIdx_spec all r.head w hw).2.1 hwJ hj

/-- Processing one fresh request extends the builder invariant: the newly
collected chain is drawn from the input, repeat-free, disjoint from what
was collected before, closed in both directions, and holds the processed
request. -/
theorem inv_extend (all : List PullRequest)
    (hH : all.Pairwise (fun a b => a.head ≠ b.head))
    (hB : all.Pairwise (fun a b => a.base ≠ b.base))
    (fuel : Nat) (sts : List (List PullRequest)) (visited : List (List Char))
    (hinv : BuildInv all sts visited) (pr root : PullRequest)
    (chain : List PullRequest) (hpr : pr ∈ all) (hv : pr.head ∉ visited)
    (hwb : walkBack all fuel pr = some root)
    (hwf : walkForward all fuel root = some chain) :
    BuildInv all (sts ++ [chain]) (visited ++ chain.map (·.head)) ∧ pr ∈ chain := by
  obtain ⟨inv1, inv2, inv3, inv4, inv5⟩ := hinv
  obtain ⟨hrootnone, k, hk⟩ := walkBack_spec all fuel pr root hwb
  have hrm : root ∈ all := parentN_mem all k pr root hpr hk
  have hchmem : ∀ v ∈ chain, v ∈ all := walkForward_mem_all all fuel root chain hrm hwf
  have hchnodup := walkForward_nodup all fuel root chain hwf
  have hchild := chain_closed_child all fuel root chain hwf
  have hparent := chain_closed_parent all hH fuel root chain hrootnone hrm hwf
  have hreach : childN all k root = some pr := parentN_invert all hB k pr root hpr hk
  have hprch : pr ∈ chain := walkForward_reach all k fuel root pr chain hwf hreach
  have hprJ : pr ∉ sts.flatten := fun hmem => hv ((inv3 pr.head).mpr ⟨pr, hmem, rfl⟩)
  have hrootJ : root ∉ sts.flatten := back_fresh all sts.flatten inv4 hB k pr root hpr hprJ hk
  have hfresh : ∀ v ∈ chain, v ∉ sts.flatten := by
    intro v hvch
    obtain ⟨i, hi⟩ := List.mem_iff_getElem?.mp hvch
    exact fwd_fresh all sts.flatten inv5 hH i root v hrm hrootJ
      (walkForward_get all fuel root chain hwf i v hi)
  have hflat : (sts ++ [chain]).flatten = sts.flatten ++ chain := by simp
  refine ⟨⟨?_, ?_, ?_, ?_, ?_⟩, hprch⟩
  · rw [hflat]
    intro q hq
    rcases List.mem_append.mp hq with h1 | h1
    · exact inv1 q h1
    · exact hchmem q h1
  · rw [hflat, List.nodup_append]
    exact ⟨inv2, hchnodup, fun a ha hb => hfresh a hb ha⟩
  · rw [hflat]
    intro x
    constructor
    · intro hx
      rcases List.mem_append.mp hx with h1 | h1
      · obtain ⟨q, hq, hqh⟩ := (inv3 x).mp h1
        exact ⟨q, List.mem_append_left _ hq, hqh⟩
      · obtain ⟨q, hq, hqh⟩ := List.mem_map.mp h1
        exact ⟨q, List.mem_append_right _ hq, hqh⟩
    · rintro ⟨q, hq, hqh⟩
      rcases List.mem_append.mp hq with h1 | h1
      · exact List.mem_append_left _ ((inv3 x).mpr ⟨q, h1, hqh⟩)
      · exact List.mem_append_right _ (List.mem_map.mpr ⟨q, h1, hqh⟩)
  · rw [hflat]
    intro q hq c hc
    rcases List.mem_append.mp hq with h1 | h1
    · exact List.mem_append_left _ (inv4 q h1 c hc)
    · exact List.mem_append_right _ (hchild q h1 c hc)
  · rw [hflat]
    intro q hq p hp
    rcases List.mem_append.mp hq with h1 | h1
    · exact List.mem_append_left _ (inv5 q h1 p hp)
    · exact List.mem_append_right _ (hparent q h1 p hp)

/-- The builder loop, started under the invariant on an input with
distinct heads and distinct bases, emits chains that are drawn from the
input, cover everything already collected and everything still to
process, and collect nothing twice. -/
theorem buildGo_partition (all : List PullRequest) (fuel : Nat)
    (hH : all.Pairwise (fun a b => a.head ≠ b.head))
    (hB : all.Pairwise (fun a b => a.base ≠ b.base)) :
    ∀ (rem : List PullRequest) (sts : List (List PullRequest))
      (visited : List (List Char)) (out : List (List PullRequest)),
      BuildInv all sts visited → (∀ q ∈ rem, q ∈ all) →
      buildGo all fuel rem sts visited = some out →
      (∀ q ∈ out.flatten, q ∈ all) ∧ out.flatten.Nodup ∧
      (∀ q ∈ sts.flatten, q ∈ out.flatten) ∧ (∀ q ∈ rem, q ∈ out.flatten) := by
  intro rem
  induction rem with
  | nil =>
    intro sts visited out hinv _ hb
    unfold buildGo at hb
    cases hb
    exact ⟨hinv.1, hinv.2.1, fun q h => h, by simp⟩
  | cons pr rest ih =>
    intro sts visited out hinv hrem hb
    unfold buildGo at hb
    by_cases hv : pr.head ∈ visited
    · rw [if_pos hv] at hb
      obtain ⟨h1, h2, h3, h4⟩ :=
        ih sts visited out hinv (fun q hq => hrem q (List.mem_cons_of_mem _ hq)) hb
      obtain ⟨q, hq, hqh⟩ := (hinv.2.2.1 pr.head).mp hv
      have hqe : q = pr :=
        head_inj all hH q pr (hinv.1 q hq) (hrem pr (List.mem_cons_self _ _)) hqh
      refine ⟨h1, h2, h3, ?_⟩
      intro x hx
      rcases List.mem_cons.mp hx with rfl | hx
      · exact h3 x (hqe ▸ hq)
      · exact h4 x hx
    · rw [if_neg hv] at hb
      split at hb
      · cases hb
      · rename_i root hwb
        split at hb
        · cases hb
        · rename_i chain hwf
          have hpr : pr ∈ all := hrem pr (List.mem_cons_self _ _)
          obtain ⟨hinv', hprch⟩ :=
            inv_extend all hH hB fuel sts visited hinv pr root chain hpr hv hwb hwf
          obtain ⟨h1, h2, h3, h4⟩ :=
            ih _ _ out hinv' (fun q hq => hrem q (List.mem_cons_of_mem _ hq)) hb
          have hflat : (sts ++ [chain]).flatten = sts.flatten ++ chain := by simp
          refine ⟨h1, h2, ?_, ?_⟩
          · intro q hq
            apply h3
            rw [hflat]
            exact List.mem_append_left _ hq
          · intro x hx
            rcases List.mem_cons.mp hx with rfl | hx
            · apply h3
              rw [hflat]
              exact List.mem_append_right _ hprch
            · exact h4 x hx

/-- Claim C1, amended: when the input has pairwise-distinct heads and
pairwise-distinct bases and the walks of build_pr_stacks complete, the
returned chains together hold each input request exactly once; the
added distinct-base precondition is forced by the shared-base
counterexample, on which the code drops one request and duplicates the
others. -/
theorem build_pr_stacks_partition_amended (prs : List PullRequest) (fuel : Nat)
    (out : List (List PullRequest))
    (hH : prs.Pairwise (fun a b => a.head ≠ b.head))
    (hB : prs.Pairwise (fun a b => a.base ≠ b.base))
    (h : build_pr_stacks fuel prs = some out) :
    (∀ pr ∈ prs, out.flatten.count pr = 1) ∧ ∀ q ∈ out.flatten, q ∈ prs := by
  have hinv0 : BuildInv prs [] [] := by
    refine ⟨by simp, by simp, ?_, by simp, by simp⟩
    intro x
    simp
  obtain ⟨h1, h2, _, h4⟩ :=
    buildGo_partition prs fuel hH hB prs [] [] out hinv0 (fun q hq => hq) h
  exact ⟨fun pr hpr => List.count_eq_one_of_mem h2 (h4 pr hpr), h1⟩

/-- Witness for the amended claim C1 on the three-chain scenario input:
each request is collected exactly once. -/
theorem build_pr_stacks_partition_amended_wit :
    [[sA, sB, sC]].flatten.count sB = 1 :=
  (build_pr_stacks_partition_amended [sA, sB, sC] 5 [[sA, sB, sC]]
    (by decide) (by decide) (by decide)).1 sB (by decide)

/-- A prefix test succeeds exactly when the pattern extends to the text. -/
theorem isPre_iff : ∀ n s : List Char, isPre n s = true ↔ ∃ t, n ++ t = s := by
  intro n
  induction n with
  | nil => intro s; simp [isPre]
  | cons a as ih =>
    intro s
    cases s with
    | nil => simp [isPre]
    | cons b bs =>
      simp only [isPre, Bool.and_eq_true, beq_iff_eq]
      constructor
      · rintro ⟨rfl, h⟩
        obtain ⟨t, ht⟩ := (ih bs).mp h
        exact ⟨t, by rw [List.cons_append, ht]⟩
      · rintro ⟨t, ht⟩
        injection ht with h1 h2
        exact ⟨h1, (ih bs).mpr ⟨t, h2⟩⟩

/-- The find result is the first position where the pattern matches. -/
theorem findSub_some_iff (n : List Char) :
    ∀ (s : List Char) (i : Nat),
      findSub n s = some i ↔
        isPre n (s.drop i) = true ∧ ∀ j, j < i → isPre n (s.drop j) = false := by
  intro s
  induction s with
  | nil =>
    intro i
    unfold findSub
    by_cases hn : n.isEmpty
    · rw [if_pos hn]
      have hne : n = [] := List.isEmpty_iff.mp hn
      subst hne
      constructor
      · intro h
        injection h with h
        subst h
        exact ⟨rfl, fun j hj => absurd hj (by omega)⟩
      · rintro ⟨_, h2⟩
        rcases Nat.eq_zero_or_pos i with rfl | hi
        · rfl
        · have := h2 0 hi
          simp [isPre] at this
    · rw [if_neg hn]
      have hne : n ≠ [] := by simpa [List.isEmpty_iff] using hn
      constructor
      · intro h; cases h
      · rintro ⟨h1, _⟩
        rw [List.drop_nil] at h1
        cases n with
        | nil => exact absurd rfl hne
        | cons a as => simp [isPre] at h1
  | cons c cs ih =>
    intro i
    unfold findSub
    by_cases hp : isPre n (c :: cs) = true
    · rw [if_pos hp]
      constructor
      · intro h
        injection h with h
        subst h
        exact ⟨by rwa [List.drop_zero], fun j hj => absurd hj (by omega)⟩
      · rintro ⟨_, h2⟩
        rcases Nat.eq_zero_or_pos i with rfl | hi
        · rfl
        · have := h2 0 hi
          rw [List.drop_zero, hp] at this
          cases this
    · rw [if_neg hp]
      have hp' : isPre n (c :: cs) = false := Bool.eq_false_iff.mpr hp
      constructor
      · intro h
        obtain ⟨i', hi', rfl⟩ := Option.map_eq_some'.mp h
        obtain ⟨g1, g2⟩ := (ih i').mp hi'
        refine ⟨by rwa [List.drop_succ_cons], ?_⟩
        intro j hj
        cases j with
        | zero => rwa [List.drop_zero]
        | succ j' =>
          rw [List.drop_succ_cons]
          exact g2 j' (by omega)
      · rintro ⟨h1, h2⟩
        cases i with
        | zero =>
          rw [List.drop_zero] at h1
          rw [h1] at hp'
          cases hp'
        | succ i' =>
          have hr := (ih i').mpr ⟨by rwa [List.drop_succ_cons] at h1, fun j hj => by
            have := h2 (j + 1) (by omega)
            rwa [List.drop_succ_cons] at this⟩
          rw [hr]
          rfl

/-- An absent pattern matches at no position. -/
theorem findSub_none_iff (n : List Char) :
    ∀ s : List Char, findSub n s = none ↔ ∀ j : Nat, isPre n (s.drop j) = false := by
  intro s
  induction s with
  | nil =>
    unfold findSub
    by_cases hn : n.isEmpty
    · rw [if_pos hn]
      have hne : n = [] := List.isEmpty_iff.mp hn
      subst hne
      constructor
      · intro h; cases h
      · intro h
        have := h 0
        simp [isPre] at this
    · rw [if_neg hn]
      have hne : n ≠ [] := by simpa [List.isEmpty_iff] using hn
      constructor
      · intro _ j
        rw [List.drop_nil]
        cases n with
        | nil => exact absurd rfl hne
        | cons a as => rfl
      · intro _; rfl
  | cons c cs ih =>
    unfold findSub
    by_cases hp : isPre n (c :: cs) = true
    · rw [if_pos hp]
      constructor
      · intro h; cases h
      · intro h
        have := h 0
        rw [List.drop_zero, hp] at this
        cases this
    · rw [if_neg hp]
      have hp' : isPre n (c :: cs) = false := Bool.eq_false_iff.mpr hp
      constructor
      · intro h j
        have hcs : findSub n cs = none := by
          cases hf : findSub n cs with
          | none => rfl
          | some k => rw [hf] at h; cases h
        cases j with
        | zero => rwa [List.drop_zero]
        | succ j' =>
          rw [List.drop_succ_cons]
          exact (ih.mp hcs) j'
      · intro h
        have hcs : findSub n cs = none := ih.mpr (fun j => by
          have := h (j + 1)
          rwa [List.drop_succ_cons] at this)
        rw [hcs]
        rfl

/-- A match at a position fixes the text characters over its window. -/
theorem isPre_getElem (n s : List Char) (j : Nat) (h : isPre n (s.drop j) = true) :
    ∀ t, t < n.length → s[j + t]? = n[t]? := by
  intro t ht
  obtain ⟨r, hr⟩ := (isPre_iff n (s.drop j)).mp h
  have h1 : (s.drop j)[t]? = s[j + t]? := List.getElem?_drop s j t
  rw [← h1, ← hr]
  exact List.getElem?_append_left ht

/-- A match at a position puts the pattern head at that position. -/
theorem isPre_head (n s : List Char) (j : Nat) (c : Char) (hne : n[0]? = some c)
    (h : isPre n (s.drop j) = true) : s[j]? = some c := by
  have hlen : 0 < n.length := by
    cases n with
    | nil => cases hne
    | cons a as => simp
  have := isPre_getElem n s j h 0 hlen
  rw [Nat.add_zero] at this
  rw [this, hne]

/-- A newline-free pattern cannot match across a newline: no character
inside the match window is a newline. -/
theorem isPre_no_nl (n s : List Char) (j : Nat) (hn : '\n' ∉ n)
    (h : isPre n (s.drop j) = true) :
    ∀ k, j ≤ k → k < j + n.length → s[k]? ≠ some '\n' := by
  intro k hk1 hk2 hbad
  have ht : k - j < n.length := by omega
  have hw := isPre_getElem n s j h (k - j) ht
  rw [show j + (k - j) = k by omega, hbad] at hw
  obtain ⟨hlt, he⟩ := List.getElem?_eq_some.mp hw.symm
  exact hn (he ▸ List.getElem_mem hlt)

/-- A match that fits inside the left part of an appended text is a match
in the left part. -/
theorem isPre_of_append (n a b : List Char) (h : isPre n (a ++ b) = true)
    (hlen : n.length ≤ a.length) : isPre n a = true := by
  obtain ⟨t, ht⟩ := (isPre_iff _ _).mp h
  refine (isPre_iff _ _).mpr ⟨a.drop n.length, ?_⟩
  have h2 : (a ++ b).take n.length = a.take n.length ++ b.take (n.length - a.length) :=
    List.take_append_eq_append_take
  rw [show n.length - a.length = 0 by omega, List.take_zero, List.append_nil] at h2
  rw [← ht, List.take_left] at h2
  nth_rewrite 1 [h2]
  exact List.take_append_drop _ a

/-- Every pattern matches at the start of its own extensions. -/
theorem isPre_self_append (n z : List Char) : isPre n (n ++ z) = true :=
  (isPre_iff _ _).mpr ⟨z, rfl⟩

/-- A newline-free pattern absent from a text does not match anywhere
below the end of a run of newlines appended to that text. -/
theorem pre_no_occ (n body pad rest : List Char) (hne : n ≠ []) (hnl : '\n' ∉ n)
    (hno : findSub n body = none) (hpad : ∀ c ∈ pad, c = '\n') (hpne : pad ≠ []) :
    ∀ j, j < body.length + pad.length →
      isPre n ((body ++ (pad ++ rest)).drop j) = false := by
  intro j hj
  cases hx : isPre n ((body ++ (pad ++ rest)).drop j) with
  | false => rfl
  | true =>
    exfalso
    have hn0 : 0 < n.length := List.length_pos.mpr hne
    have hp0 : 0 < pad.length := List.length_pos.mpr hpne
    by_cases hcase : j + n.length ≤ body.length
    · have hdrop : (body ++ (pad ++ rest)).drop j = body.drop j ++ (pad ++ rest) := by
        rw [List.drop_append_eq_append_drop, show j - body.length = 0 by omega,
          List.drop_zero]
      rw [hdrop] at hx
      have hpre : isPre n (body.drop j) = true := by
        apply isPre_of_append n (body.drop j) (pad ++ rest) hx
        rw [List.length_drop]
        omega
      have := (findSub_none_iff n body).mp hno j
      rw [hpre] at this
      cases this
    · obtain ⟨k, hk1, hk2, hk3, hk4⟩ :
          ∃ k, j ≤ k ∧ k < j + n.length ∧ body.length ≤ k ∧
            k < body.length + pad.length := ⟨max j body.length, by omega, by omega,
              by omega, by omega⟩
      have hlt : k - body.length < pad.length := by omega
      have hsk : (body ++ (pad ++ rest))[k]? = some '\n' := by
        rw [List.getElem?_append_right (by omega : body.length ≤ k)]
        rw [List.getElem?_append_left hlt]
        have hg : pad[k - body.length]? = some pad[k - body.length] :=
          List.getElem?_eq_some.mpr ⟨hlt, rfl⟩
        rw [hg, hpad _ (List.getElem_mem hlt)]
      exact isPre_no_nl n (body ++ (pad ++ rest)) j hnl hx k hk1 hk2 hsk

/-- Digit characters are never the angle bracket opening a marker. -/
theorem digitChar_ne (d : Nat) : Nat.digitChar d ≠ '<' := by
  rcases Nat.lt_or_ge d 16 with h | h
  · interval_cases d <;> decide
  · have h0 : ¬ d = 0 := by omega
    have h1 : ¬ d = 1 := by omega
    have h2 : ¬ d = 2 := by omega
    have h3 : ¬ d = 3 := by omega
    have h4 : ¬ d = 4 := by omega
    have h5 : ¬ d = 5 := by omega
    have h6 : ¬ d = 6 := by omega
    have h7 : ¬ d = 7 := by omega
    have h8 : ¬ d = 8 := by omega
    have h9 : ¬ d = 9 := by omega
    have h10 : ¬ d = 10 := by omega
    have h11 : ¬ d = 11 := by omega
    have h12 : ¬ d = 12 := by omega
    have h13 : ¬ d = 13 := by omega
    have h14 : ¬ d = 14 := by omega
    have h15 : ¬ d = 15 := by omega
    unfold Nat.digitChar
    rw [if_neg h0, if_neg h1, if_neg h2, if_neg h3, if_neg h4, if_neg h5, if_neg h6,
      if_neg h7, if_neg h8, if_neg h9, if_neg h10, if_neg h11, if_neg h12, if_neg h13,
      if_neg h14, if_neg h15]
    decide

/-- The digit accumulator only ever prepends digit characters. -/
theorem toDigitsCore_chars (b : Nat) :
    ∀ (fuel n : Nat) (ds : List Char), (∀ c ∈ ds, c ≠ '<') →
      ∀ c ∈ Nat.toDigitsCore b fuel n ds, c ≠ '<' := by
  intro fuel
  induction fuel with
  | zero =>
    intro n ds h c hc
    unfold Nat.toDigitsCore at hc
    exact h c hc
  | succ f ih =>
    intro n ds h c hc
    conv at hc => rw [Nat.toDigitsCore]
    have hcons : ∀ x ∈ (n % b).digitChar :: ds, x ≠ '<' := by
      intro x hx
      rcases List.mem_cons.mp hx with rfl | hx
      · exact digitChar_ne (n % b)
      · exact h x hx
    split at hc
    · exact hcons c hc
    · exact ih (n / b) ((n % b).digitChar :: ds) hcons c hc

/-- The decimal rendering of a natural number holds no angle bracket. -/
theorem natRepr_chars (n : Nat) : ∀ c ∈ (Nat.repr n).data, c ≠ '<' := by
  intro c hc
  have : (Nat.repr n).data = Nat.toDigitsCore 10 (n + 1) n [] := rfl
  rw [this] at hc
  exact toDigitsCore_chars 10 (n + 1) n [] (by simp) c hc

/-- The decimal rendering of an integer holds no angle bracket. -/
theorem intRepr_chars (i : Int) : ∀ c ∈ (Int.repr i).data, c ≠ '<' := by
  intro c hc
  cases i with
  | ofNat m => exact natRepr_chars m c hc
  | negSucc m =>
    have : (Int.repr (Int.negSucc m)).data = '-' :: (Nat.repr (m + 1)).data := rfl
    rw [this] at hc
    rcases List.mem_cons.mp hc with rfl | hc
    · decide
    · exact natRepr_chars (m + 1) c hc

/-- A rendered member line holds no angle bracket when the member head
holds none. -/
theorem navLine_chars (i : Nat) (pr : PullRequest) (cur : List Char)
    (hh : '<' ∉ pr.head) : '<' ∉ navLine i pr cur := by
  intro hc
  unfold navLine at hc
  simp only [List.append_assoc, List.mem_append] at hc
  rcases hc with hc | hc | hc | hc | hc | hc | hc | hc
  · exact natRepr_chars (i + 1) '<' hc rfl
  · simp at hc
  · exact intRepr_chars pr.number '<' hc rfl
  · simp at hc
  · exact hh hc
  · simp at hc
  · split at hc
    · simp at hc
    · simp at hc
  · simp at hc

/-- The rendered member lines hold no angle bracket when no member head
holds one. -/
theorem navLines_chars (chain : List PullRequest) (cur : List Char)
    (hh : ∀ pr ∈ chain, '<' ∉ pr.head) :
    ∀ i : Nat, '<' ∉ navLines chain cur i := by
  induction chain with
  | nil => intro i hc; simp [navLines] at hc
  | cons pr rest ih =>
    intro i hc
    unfold navLines at hc
    rcases List.mem_append.mp hc with hc | hc
    · exact navLine_chars i pr cur (hh pr (List.mem_cons_self _ _)) hc
    · exact ih (fun q hq => hh q (List.mem_cons_of_mem _ hq)) (i + 1) hc

/-- Dropping while a predicate holds skips a fully satisfying prefix. -/
theorem dropWhile_append_all (p : Char → Bool) (a b : List Char)
    (h : ∀ c ∈ a, p c = true) : (a ++ b).dropWhile p = b.dropWhile p := by
  induction a with
  | nil => rfl
  | cons x xs ih =>
    simp only [List.cons_append, List.dropWhile_cons, h x (List.mem_cons_self x xs),
      if_true]
    exact ih (fun c hc => h c (List.mem_cons_of_mem x hc))

/-- Trailing newlines are invisible to trimming. -/
theorem trim_append_nl (s pad : List Char) (h : ∀ c ∈ pad, c = '\n') :
    trim (s ++ pad) = trim s := by
  unfold trim trimRight
  congr 2
  rw [List.reverse_append]
  apply dropWhile_append_all
  intro c hc
  rw [h c (List.mem_reverse.mp hc)]
  decide

/-- Inserting a non-empty block into a marker-free body appends a short
run of newlines, the block, and a final newline after the body. -/
theorem update_shape (body block : List Char) (hb : block ≠ [])
    (hbH : findSub STACK_HEADER body = none) :
    ∃ pad : List Char, (∀ c ∈ pad, c = '\n') ∧ pad ≠ [] ∧
      update_pr_description body block = body ++ (pad ++ (block ++ ['\n'])) := by
  have heq : update_pr_description body block =
      if block.isEmpty then body
      else
        (if !body.isEmpty && !(body.getLast? == some '\n') then body ++ ['\n'] else body) ++
          ['\n'] ++ block ++ ['\n'] := by
    simp only [update_pr_description]
    rw [remove_nav_block_noop body (Or.inl hbH)]
  rw [heq, if_neg (by simpa [List.isEmpty_iff] using hb)]
  by_cases hcond : (!body.isEmpty && !(body.getLast? == some '\n')) = true
  · rw [if_pos hcond]
    exact ⟨['\n', '\n'], by decide, by decide, by simp⟩
  · rw [if_neg hcond]
    exact ⟨['\n'], by decide, by decide, by simp⟩

/-- The footer marker does not match anywhere strictly inside the region
running from the block header to the end of the member lines: the only
angle bracket there opens the header marker, whose text differs from the
footer marker. -/
theorem M_region (M tail rest : List Char) (hM : M = STACK_HEADER ++ tail)
    (htail : '<' ∉ tail) :
    ∀ t, t < M.length → isPre STACK_FOOTER ((M ++ rest).drop t) = false := by
  intro t ht
  cases hx : isPre STACK_FOOTER ((M ++ rest).drop t) with
  | false => rfl
  | true =>
    exfalso
    cases t with
    | zero =>
      rw [List.drop_zero, hM, List.append_assoc] at hx
      have hfalse : isPre STACK_FOOTER (STACK_HEADER ++ (tail ++ rest)) = false := rfl
      rw [hfalse] at hx
      cases hx
    | succ t' =>
      have hhead : (M ++ rest)[t' + 1]? = some '<' :=
        isPre_head STACK_FOOTER (M ++ rest) (t' + 1) '<' (by decide) hx
      rw [List.getElem?_append_left ht] at hhead
      have hdrop : (M.drop 1)[t']? = M[1 + t']? := List.getElem?_drop M 1 t'
      rw [show 1 + t' = t' + 1 by omega] at hdrop
      rw [← hdrop] at hhead
      obtain ⟨hlt, he⟩ := List.getElem?_eq_some.mp hhead
      have hmem : '<' ∈ M.drop 1 := he ▸ List.getElem_mem hlt
      rw [hM, List.drop_append_eq_append_drop,
        show 1 - STACK_HEADER.length = 0 by decide, List.drop_zero] at hmem
      rcases List.mem_append.mp hmem with hc | hc
      · exact absurd hc (by decide)
      · exact htail hc

/-- Claim C6, amended: for a chain of two or more whose member heads hold
no angle bracket, and a body holding neither marker, removing the block
right after inserting the rendered block recovers the body trimmed of
white space at both ends (the code trims the leading end too, not only
the insertion end). -/
theorem roundtrip_amended (body : List Char) (chain : List PullRequest)
    (mem : PullRequest) (_hlen : 2 ≤ chain.length) (_hmem : mem ∈ chain)
    (hheads : ∀ pr ∈ chain, '<' ∉ pr.head)
    (hbH : findSub STACK_HEADER body = none)
    (hbF : findSub STACK_FOOTER body = none) :
    remove_nav_block (update_pr_description body (generate_nav_block chain mem.head)) =
      trim body := by
  have htailchars : '<' ∉ ('\n' :: ("Stack of changes:".data ++
      '\n' :: navLines chain mem.head 0)) := by
    intro hc
    rcases List.mem_cons.mp hc with hc | hc
    · cases hc
    · rcases List.mem_append.mp hc with hc | hc
      · exact absurd hc (by decide)
      · rcases List.mem_cons.mp hc with hc | hc
        · cases hc
        · exact navLines_chars chain mem.head hheads 0 hc
  have hblock : generate_nav_block chain mem.head =
      (STACK_HEADER ++ ('\n' :: ("Stack of changes:".data ++
        '\n' :: navLines chain mem.head 0))) ++ (STACK_FOOTER ++ ['\n']) := by
    simp [generate_nav_block]
  have hbne : generate_nav_block chain mem.head ≠ [] := by
    rw [hblock]
    simp [STACK_HEADER]
  obtain ⟨pad, hpadnl, hpadne, hupd⟩ :=
    update_shape body (generate_nav_block chain mem.head) hbne hbH
  rw [hupd, hblock]
  rw [show body ++ (pad ++ (((STACK_HEADER ++ ('\n' :: ("Stack of changes:".data ++
      '\n' :: navLines chain mem.head 0))) ++ (STACK_FOOTER ++ ['\n'])) ++ ['\n'])) =
    (body ++ pad) ++ ((STACK_HEADER ++ ('\n' :: ("Stack of changes:".data ++
      '\n' :: navLines chain mem.head 0))) ++ (STACK_FOOTER ++ ['\n', '\n'])) from by
    simp [List.append_assoc]]
  have hfH : findSub STACK_HEADER ((body ++ pad) ++
      ((STACK_HEADER ++ ('\n' :: ("Stack of changes:".data ++
        '\n' :: navLines chain mem.head 0))) ++ (STACK_FOOTER ++ ['\n', '\n']))) =
      some (body ++ pad).length := by
    rw [findSub_some_iff]
    constructor
    · rw [List.drop_left, List.append_assoc]
      exact isPre_self_append _ _
    · intro j hj
      have hocc := pre_no_occ STACK_HEADER body pad
        ((STACK_HEADER ++ ('\n' :: ("Stack of changes:".data ++
          '\n' :: navLines chain mem.head 0))) ++ (STACK_FOOTER ++ ['\n', '\n']))
        (by decide) (by decide) hbH hpadnl hpadne j
        (by rw [List.length_append] at hj; exact hj)
      rwa [← List.append_assoc] at hocc
  have hfF : findSub STACK_FOOTER ((body ++ pad) ++
      ((STACK_HEADER ++ ('\n' :: ("Stack of changes:".data ++
        '\n' :: navLines chain mem.head 0))) ++ (STACK_FOOTER ++ ['\n', '\n']))) =
      some ((body ++ pad).length + (STACK_HEADER ++ ('\n' :: ("Stack of changes:".data ++
        '\n' :: navLines chain mem.head 0))).length) := by
    rw [findSub_some_iff]
    constructor
    · rw [show (body ++ pad) ++ ((STACK_HEADER ++ ('\n' :: ("Stack of changes:".data ++
          '\n' :: navLines chain mem.head 0))) ++ (STACK_FOOTER ++ ['\n', '\n'])) =
        ((body ++ pad) ++ (STACK_HEADER ++ ('\n' :: ("Stack of changes:".data ++
          '\n' :: navLines chain mem.head 0)))) ++ (STACK_FOOTER ++ ['\n', '\n'])
        from (List.append_assoc _ _ _).symm]
      rw [show (body ++ pad).length + (STACK_HEADER ++ ('\n' :: ("Stack of changes:".data ++
          '\n' :: navLines chain mem.head 0))).length =
        ((body ++ pad) ++ (STACK_HEADER ++ ('\n' :: ("Stack of changes:".data ++
          '\n' :: navLines chain mem.head 0)))).length from (List.length_append _ _).symm]
      rw [List.drop_left]
      exact isPre_self_append _ _
    · intro j hj
      by_cases hjP : j < (body ++ pad).length
      · have hocc := pre_no_occ STACK_FOOTER body pad
          ((STACK_HEADER ++ ('\n' :: ("Stack of changes:".data ++
            '\n' :: navLines chain mem.head 0))) ++ (STACK_FOOTER ++ ['\n', '\n']))
          (by decide) (by decide) hbF hpadnl hpadne j
          (by rw [List.length_append] at hjP; exact hjP)
        rwa [← List.append_assoc] at hocc
      · have ht : j - (body ++ pad).length <
            (STACK_HEADER ++ ('\n' :: ("Stack of changes:".data ++
              '\n' :: navLines chain mem.head 0))).length := by omega
        rw [List.drop_append_eq_append_drop,
          List.drop_eq_nil_of_le (by omega : (body ++ pad).length ≤ j), List.nil_append]
        exact M_region _ _ _ rfl htailchars _ ht
  unfold remove_nav_block
  rw [hfH, hfF]
  simp only []
  rw [List.take_left]
  rw [show ((body ++ pad) ++ ((STACK_HEADER ++ ('\n' :: ("Stack of changes:".data ++
      '\n' :: navLines chain mem.head 0))) ++ (STACK_FOOTER ++ ['\n', '\n']))).drop
      ((body ++ pad).length + (STACK_HEADER ++ ('\n' :: ("Stack of changes:".data ++
        '\n' :: navLines chain mem.head 0))).length + STACK_FOOTER.length) =
      ['\n', '\n'] from by
    rw [show (body ++ pad) ++ ((STACK_HEADER ++ ('\n' :: ("Stack of changes:".data ++
        '\n' :: navLines chain mem.head 0))) ++ (STACK_FOOTER ++ ['\n', '\n'])) =
      (((body ++ pad) ++ (STACK_HEADER ++ ('\n' :: ("Stack of changes:".data ++
        '\n' :: navLines chain mem.head 0)))) ++ STACK_FOOTER) ++ ['\n', '\n'] from by
      simp [List.append_assoc]]
    rw [show (body ++ pad).length + (STACK_HEADER ++ ('\n' :: ("Stack of changes:".data ++
        '\n' :: navLines chain mem.head 0))).length + STACK_FOOTER.length =
      ((((body ++ pad) ++ (STACK_HEADER ++ ('\n' :: ("Stack of changes:".data ++
        '\n' :: navLines chain mem.head 0)))) ++ STACK_FOOTER)).length from by
      simp [List.length_append]
      omega]
    rw [List.drop_left]]
  rw [trim_append_nl body pad hpadnl]
  rw [show trim ['\n', '\n'] = [] from by decide]
  simp

/-- Counterexample to claim C6 as stated: the code trims the leading end
of the body too, not only the insertion end; a body already holding a
marker, or a member head holding the footer marker, breaks the round
trip outright. -/
theorem roundtrip_cex :
    remove_nav_block (update_pr_description " x".data
        (generate_nav_block [sA, sB] sA.head)) = "x".data ∧
    "x".data ≠ " x".data ∧
    remove_nav_block (update_pr_description ("x".data ++ STACK_FOOTER)
        (generate_nav_block [sA, sB] sA.head)) ≠ "x".data ++ STACK_FOOTER ∧
    remove_nav_block (update_pr_description "x".data
        (generate_nav_block [sA, eF] sA.head)) ≠ "x".data := by
  refine ⟨by decide, by decide, by decide, by decide⟩

/-- Witness for the amended claim C6: inserting then removing the block
over a two-chain recovers the trimmed body. -/
theorem roundtrip_amended_wit :
    remove_nav_block (update_pr_description " Intro ".data
        (generate_nav_block [sA, sB] sA.head)) = trim " Intro ".data :=
  roundtrip_amended " Intro ".data [sA, sB] sA (by decide) (by decide)
    (by decide) (by decide) (by decide)

